import Mathlib

/-!
# The peer address registry of the net plugin

A shallow embedding of `plugins/net_plugin/address_manager.cpp`.

* The member `addresses` (a `std::vector<peer_address>`) is a `List peer_address`, threaded
  explicitly through every operation; the mutex is not modelled, since each operation is one
  atomic step of the list.
* `peer_address::from_str` and `peer_address::to_str` are declared in a header of the
  net plugin, which is not embedded: they are parameters `from_str` and `to_str` of
  the operations that call them. `from_str s m = none` stands for a parse that throws.
* `fc::time_point::now()` is the parameter `now` of the operations that read the clock.
* `std::unordered_set<std::string>` is a `Finset String` when it is a result, and the list of its
  elements in iteration order when an operation loops over it and changes the registry.
-/

namespace eosio

/-- Modelled from the spec: the record type `peer_address`, declared in a header of the
net plugin. One record per known endpoint: `host`, `port`, the role `address_type`
(an enumeration, kept as its numeric value), the flags `receive` and `manual`, and
`last_active`, an `fc::time_point` kept as its count of microseconds since the epoch
(zero: never observed active). -/
structure peer_address where
  host : String
  port : String
  address_type : Nat
  receive : Bool
  manual : Bool
  last_active : Int
deriving DecidableEq

/-- Modelled from the spec: the default constructed record `peer_address()`, every field at
its zero value. -/
def peer_address.default : peer_address :=
  { host := "", port := "", address_type := 0, receive := false, manual := false,
    last_active := 0 }

/-- The identity key of a record: the pair of `host` and `port`. -/
def peer_address.key (a : peer_address) : String × String := (a.host, a.port)

/-- Modelled from the spec: `peer_address::operator==`, declared in a header of the
net plugin. Two records are the same entry when `host` and `port` match; role, flags
and `last_active` take no part. -/
def same_key (a b : peer_address) : Bool :=
  a.host == b.host && a.port == b.port

/-- The call `std::find(addresses.begin(), addresses.end(), address)`: the position of the
first record equal to `address` under `operator==`, `none` for `addresses.end()`. -/
def find : List peer_address → peer_address → Option Nat
  | [], _ => none
  | x :: xs, address => if same_key x address then some 0 else (find xs address).map (· + 1)

/-- The method `address_manager::add_address`. -/
def add_address (addresses : List peer_address) (address : peer_address) : List peer_address :=
  match find addresses address with
  | some _ => addresses
  | none => addresses ++ [address]

/-- The method `address_manager::add_or_update_address`. -/
def add_or_update_address (addresses : List peer_address) (address : peer_address) :
    List peer_address :=
  match find addresses address with
  | some it =>
      addresses.modify (fun r => { r with manual := address.manual, receive := address.receive }) it
  | none => addresses ++ [address]

/-- The registry after a call that parses a string, and whether the call returned normally
(`returned = false`: `from_str` threw and the exception left the operation). -/
structure outcome where
  addresses : List peer_address
  returned : Bool
deriving DecidableEq

/-- The method `address_manager::touch_address`. -/
def touch_address (from_str : String → Bool → Option peer_address)
    (addresses : List peer_address) (address : String) (now : Int) : outcome :=
  match from_str address false with
  | none => ⟨addresses, false⟩
  | some pa => ⟨add_or_update_address addresses { pa with last_active := now }, true⟩

/-- The method `address_manager::add_address_str`. -/
def add_address_str (from_str : String → Bool → Option peer_address)
    (addresses : List peer_address) (address : String) (is_manual : Bool) : outcome :=
  match from_str address is_manual with
  | none => ⟨addresses, false⟩
  | some addr => ⟨add_address addresses addr, true⟩

/-- The method `address_manager::add_active_address`. -/
def add_active_address (from_str : String → Bool → Option peer_address)
    (addresses : List peer_address) (address : String) (now : Int) : outcome :=
  match from_str address false with
  | none => ⟨addresses, false⟩
  | some addr => ⟨add_address addresses { addr with last_active := now }, true⟩

/-- The method `address_manager::add_addresses`; the second list is the argument set in the
order the loop visits it. A throwing parse abandons the loop and keeps the insertions made
so far. -/
def add_addresses (from_str : String → Bool → Option peer_address) :
    List peer_address → List String → Bool → outcome
  | addresses, [], _ => ⟨addresses, true⟩
  | addresses, address :: rest, is_manual =>
      match from_str address false with
      | none => ⟨addresses, false⟩
      | some pa =>
          if find addresses pa = none then
            add_addresses from_str (addresses ++ [{ pa with manual := is_manual }]) rest is_manual
          else
            add_addresses from_str addresses rest is_manual

/-- The method `address_manager::remove_address`. -/
def remove_address (addresses : List peer_address) (address : peer_address) :
    List peer_address :=
  match find addresses address with
  | some iter => addresses.eraseIdx iter
  | none => addresses

/-- The method `address_manager::remove_address_str`. -/
def remove_address_str (from_str : String → Bool → Option peer_address)
    (addresses : List peer_address) (address : String) : outcome :=
  match from_str address false with
  | none => ⟨addresses, false⟩
  | some pa => ⟨remove_address addresses pa, true⟩

/-- The method `address_manager::remove_addresses_str`; the second list is the argument set
in the order the loop visits it. -/
def remove_addresses_str (from_str : String → Bool → Option peer_address) :
    List peer_address → List String → outcome
  | addresses, [] => ⟨addresses, true⟩
  | addresses, address_str :: rest =>
      match from_str address_str false with
      | none => ⟨addresses, false⟩
      | some pa =>
          match find addresses pa with
          | some it => remove_addresses_str from_str (addresses.eraseIdx it) rest
          | none => remove_addresses_str from_str addresses rest

/-- The method `address_manager::update_address`. -/
def update_address (addresses : List peer_address) (updated_address : peer_address) :
    List peer_address :=
  match find addresses updated_address with
  | some it => addresses.set it updated_address
  | none => addresses

/-- The method `address_manager::get_addresses`. -/
def get_addresses (to_str : peer_address → String) (addresses : List peer_address) :
    Finset String :=
  addresses.foldl (fun result item => insert (to_str item) result) ∅

/-- The method `address_manager::get_manual_addresses`. -/
def get_manual_addresses (to_str : peer_address → String) (addresses : List peer_address) :
    Finset String :=
  addresses.foldl
    (fun manual_addresses address =>
      if address.manual then insert (to_str address) manual_addresses else manual_addresses) ∅

/-- The method `address_manager::get_diff_addresses`: the strings of the chosen snapshot that
`addresses_exist` does not hold. -/
def get_diff_addresses (to_str : peer_address → String) (addresses : List peer_address)
    (addresses_exist : Finset String) (manual : Bool) : Finset String :=
  let addr_str_set :=
    if manual then get_manual_addresses to_str addresses else get_addresses to_str addresses
  addr_str_set.filter (fun addr_str => addr_str ∉ addresses_exist)

/-- Modelled from the spec: `fc::seconds(n)`, the duration of `n` seconds in microseconds,
from the time library `fc`. Times are mathematical integers: the
64-bit range is not modelled, signed overflow being undefined in the source language. -/
def fc_seconds (n : Int) : Int := n * 1000000

/-- The method `address_manager::get_latest_active_addresses`; `secs` is `secs.count()`. -/
def get_latest_active_addresses (to_str : peer_address → String)
    (addresses : List peer_address) (now : Int) (secs : Int) (manual : Bool) : Finset String :=
  let oldest_time := now - fc_seconds secs
  addresses.foldl
    (fun active_addresses address =>
      if (!manual || address.manual == manual) && decide (address.last_active ≥ oldest_time) then
        insert (to_str address) active_addresses
      else active_addresses) ∅

/-- The method `address_manager::get_addresses_map`. -/
def get_addresses_map (from_str : String → Bool → Option peer_address)
    (addresses : List peer_address) (address : String) : Option peer_address :=
  match from_str address false with
  | none => none
  | some pa =>
      match find addresses pa with
      | some it => some (addresses.getD it peer_address.default)
      | none => some peer_address.default

/-- The method `address_manager::has_address`. -/
def has_address (from_str : String → Bool → Option peer_address)
    (addresses : List peer_address) (address_str : String) : Option Bool :=
  match from_str address_str false with
  | none => none
  | some pa => some (find addresses pa).isSome

/-- The method `address_manager::get_addresses_count`, a `uint32_t`. -/
def get_addresses_count (addresses : List peer_address) : Nat :=
  addresses.length % 2 ^ 32

/-- One call of a method that changes the registry. -/
inductive call where
  | add_address (address : peer_address)
  | add_or_update_address (address : peer_address)
  | touch_address (address : String) (now : Int)
  | add_address_str (address : String) (is_manual : Bool)
  | add_active_address (address : String) (now : Int)
  | add_addresses (new_addresses_str : List String) (is_manual : Bool)
  | remove_address (address : peer_address)
  | remove_address_str (address : String)
  | remove_addresses_str (addresses_to_remove : List String)
  | update_address (updated_address : peer_address)

/-- The registry after one call, whether the call returned or threw. -/
def call.apply (from_str : String → Bool → Option peer_address)
    (addresses : List peer_address) : call → List peer_address
  | .add_address a => eosio.add_address addresses a
  | .add_or_update_address a => eosio.add_or_update_address addresses a
  | .touch_address s now => (eosio.touch_address from_str addresses s now).addresses
  | .add_address_str s m => (eosio.add_address_str from_str addresses s m).addresses
  | .add_active_address s now => (eosio.add_active_address from_str addresses s now).addresses
  | .add_addresses ss m => (eosio.add_addresses from_str addresses ss m).addresses
  | .remove_address a => eosio.remove_address addresses a
  | .remove_address_str s => (eosio.remove_address_str from_str addresses s).addresses
  | .remove_addresses_str ss => (eosio.remove_addresses_str from_str addresses ss).addresses
  | .update_address a => eosio.update_address addresses a

/-- The registry after a sequence of calls, starting from `addresses`. -/
def run (from_str : String → Bool → Option peer_address)
    (addresses : List peer_address) (calls : List call) : List peer_address :=
  calls.foldl (call.apply from_str) addresses

/-- Identity uniqueness: the keys of the stored records are pairwise different. -/
def unique_keys (addresses : List peer_address) : Prop :=
  (addresses.map peer_address.key).Nodup

instance (addresses : List peer_address) : Decidable (unique_keys addresses) := by
  unfold unique_keys; infer_instance

/-- A small parser for worked examples: it knows three address strings, builds the record
with the given `manual` flag and no activity stamp, and throws on anything else. -/
def example_from_str (s : String) (is_manual : Bool) : Option peer_address :=
  if s = "10.0.0.1:9876" then
    some { host := "10.0.0.1", port := "9876", address_type := 0, receive := false,
           manual := is_manual, last_active := 0 }
  else if s = "10.0.0.2:9876" then
    some { host := "10.0.0.2", port := "9876", address_type := 0, receive := false,
           manual := is_manual, last_active := 0 }
  else if s = "10.0.0.1:9876:trx" then
    some { host := "10.0.0.1", port := "9876", address_type := 1, receive := false,
           manual := is_manual, last_active := 0 }
  else none

/-- A small serializer for worked examples: `host:port`. -/
def example_to_str (a : peer_address) : String := a.host ++ ":" ++ a.port

/-- The set of the identity keys of the stored records. -/
def stored_keys (addresses : List peer_address) : Finset (String × String) :=
  (addresses.map peer_address.key).toFinset

/-- The set of the identity keys that the strings parse to. -/
def parsed_keys (from_str : String → Bool → Option peer_address) (strs : List String) :
    Finset (String × String) :=
  (strs.filterMap (fun s => (from_str s false).map peer_address.key)).toFinset

/-- Whether the record `r` has the identity key that one of the strings parses to. -/
def key_among (from_str : String → Bool → Option peer_address) (strs : List String)
    (r : peer_address) : Bool :=
  strs.any (fun s =>
    match from_str s false with
    | some p => same_key r p
    | none => false)

/-- A parser for a worked example: it reads the bare separator `:` as the endpoint with
empty host and empty port, and throws on anything else. -/
def bare_colon_from_str (s : String) (is_manual : Bool) : Option peer_address :=
  if s = ":" then
    some { host := "", port := "", address_type := 0, receive := false,
           manual := is_manual, last_active := 0 }
  else none

/-- A registry of `n` records for a worked example: the hosts `a`, `aa`, `aaa`, ... on
port `1`. -/
def many_addresses (n : Nat) : List peer_address :=
  (List.range n).map (fun k =>
    { host := String.mk (List.replicate (k + 1) 'a'), port := "1", address_type := 0,
      receive := false, manual := false, last_active := 0 })

/-! ## Facts about `same_key` and `find` -/

theorem same_key_iff (a b : peer_address) : same_key a b = true ↔ a.key = b.key := by
  simp [same_key, peer_address.key, Prod.ext_iff]

theorem same_key_false_iff (a b : peer_address) : same_key a b = false ↔ a.key ≠ b.key := by
  rw [← not_iff_not, Bool.not_eq_false, same_key_iff]; simp

theorem same_key_refl (a : peer_address) : same_key a a = true :=
  (same_key_iff a a).2 rfl

theorem find_eq_none_iff (l : List peer_address) (a : peer_address) :
    find l a = none ↔ ∀ q ∈ l, same_key q a = false := by
  induction l with
  | nil => simp [find]
  | cons x xs ih =>
    by_cases hx : same_key x a = true
    · simp [find, hx]
    · simp only [Bool.not_eq_true] at hx
      simp [find, hx, ih]

theorem find_lt_length {l : List peer_address} {a : peer_address} {i : Nat}
    (h : find l a = some i) : i < l.length := by
  induction l generalizing i with
  | nil => simp [find] at h
  | cons x xs ih =>
    by_cases hx : same_key x a = true
    · simp [find, hx] at h; subst h; simp
    · simp only [Bool.not_eq_true] at hx
      simp only [find, hx, Bool.false_eq_true, if_false, Option.map_eq_some'] at h
      obtain ⟨k, hk, rfl⟩ := h
      have := ih hk
      simp; omega

/-- What `std::find` returns: position `i` holds the first record with the key of `a`. -/
theorem find_eq_some_iff (l : List peer_address) (a : peer_address) (i : Nat) :
    find l a = some i ↔
      (∃ r, l[i]? = some r ∧ same_key r a = true) ∧ ∀ q ∈ l.take i, same_key q a = false := by
  induction l generalizing i with
  | nil => simp [find]
  | cons x xs ih =>
    by_cases hx : same_key x a = true
    · cases i with
      | zero => simp [find, hx]
      | succ k =>
        simp [find, hx]
    · simp only [Bool.not_eq_true] at hx
      cases i with
      | zero => simp [find, hx]
      | succ k => simp [find, hx, ih k]

theorem find_isSome_of_mem {l : List peer_address} {a r : peer_address}
    (hr : r ∈ l) (hk : same_key r a = true) : ∃ i, find l a = some i := by
  cases h : find l a with
  | some i => exact ⟨i, rfl⟩
  | none =>
    have := (find_eq_none_iff l a).1 h r hr
    simp [hk] at this

/-! ## Identity uniqueness is kept by every operation -/

theorem unique_keys_append {l : List peer_address} {a : peer_address}
    (hl : unique_keys l) (ha : find l a = none) : unique_keys (l ++ [a]) := by
  unfold unique_keys at *
  rw [List.map_append, List.nodup_append]
  refine ⟨hl, by simp, ?_⟩
  intro k hk hk2
  simp only [List.map_cons, List.map_nil, List.mem_singleton] at hk2
  obtain ⟨q, hq, rfl⟩ := List.mem_map.1 hk
  have := (find_eq_none_iff l a).1 ha q hq
  rw [same_key_false_iff] at this
  exact this hk2

theorem unique_keys_eraseIdx {l : List peer_address} (hl : unique_keys l) (i : Nat) :
    unique_keys (l.eraseIdx i) :=
  List.Nodup.sublist ((List.eraseIdx_sublist l i).map _) hl

theorem map_key_modify (l : List peer_address) (i : Nat) (f : peer_address → peer_address)
    (hf : ∀ r, (f r).key = r.key) :
    (l.modify f i).map peer_address.key = l.map peer_address.key := by
  apply List.ext_getElem?
  intro j
  rw [List.getElem?_map, List.getElem?_map, List.getElem?_modify]
  cases l[j]? with
  | none => rfl
  | some r => by_cases h : i = j <;> simp [h, hf]

theorem map_key_set {l : List peer_address} {i : Nat} {u : peer_address}
    (h : find l u = some i) :
    (l.set i u).map peer_address.key = l.map peer_address.key := by
  obtain ⟨⟨r, hr, hk⟩, _⟩ := (find_eq_some_iff l u i).1 h
  have hlt := find_lt_length h
  apply List.ext_getElem?
  intro j
  rw [List.getElem?_map, List.getElem?_map, List.getElem?_set]
  by_cases hij : i = j
  · subst hij
    simp [hlt, hr, ((same_key_iff r u).1 hk)]
  · simp [hij]

theorem unique_keys_add_address {l : List peer_address} (hl : unique_keys l)
    (a : peer_address) : unique_keys (add_address l a) := by
  unfold add_address
  split
  · exact hl
  · next h => exact unique_keys_append hl h

theorem unique_keys_add_or_update_address {l : List peer_address} (hl : unique_keys l)
    (a : peer_address) : unique_keys (add_or_update_address l a) := by
  unfold add_or_update_address
  split
  · unfold unique_keys
    rw [map_key_modify l _
      (fun r => { r with manual := a.manual, receive := a.receive }) (fun r => rfl)]
    exact hl
  · next h => exact unique_keys_append hl h

theorem unique_keys_remove_address {l : List peer_address} (hl : unique_keys l)
    (a : peer_address) : unique_keys (remove_address l a) := by
  unfold remove_address
  split
  · exact unique_keys_eraseIdx hl _
  · exact hl

theorem unique_keys_update_address {l : List peer_address} (hl : unique_keys l)
    (a : peer_address) : unique_keys (update_address l a) := by
  unfold update_address
  split
  · next i h =>
    unfold unique_keys
    rw [map_key_set h]
    exact hl
  · exact hl

theorem unique_keys_add_addresses (from_str : String → Bool → Option peer_address)
    (ss : List String) (m : Bool) :
    ∀ l : List peer_address, unique_keys l → unique_keys (add_addresses from_str l ss m).addresses := by
  induction ss with
  | nil => intro l hl; simpa [add_addresses] using hl
  | cons s rest ih =>
    intro l hl
    unfold add_addresses
    cases hp : from_str s false with
    | none => simpa using hl
    | some pa =>
      simp only
      split
      · next h =>
        apply ih
        apply unique_keys_append hl
        rw [find_eq_none_iff] at h ⊢
        exact h
      · exact ih l hl

theorem unique_keys_remove_addresses_str (from_str : String → Bool → Option peer_address)
    (ss : List String) :
    ∀ l : List peer_address, unique_keys l →
      unique_keys (remove_addresses_str from_str l ss).addresses := by
  induction ss with
  | nil => intro l hl; simpa [remove_addresses_str] using hl
  | cons s rest ih =>
    intro l hl
    unfold remove_addresses_str
    cases hp : from_str s false with
    | none => simpa using hl
    | some pa =>
      simp only
      split
      · exact ih _ (unique_keys_eraseIdx hl _)
      · exact ih l hl

theorem unique_keys_apply (from_str : String → Bool → Option peer_address)
    {l : List peer_address} (hl : unique_keys l) (c : call) :
    unique_keys (c.apply from_str l) := by
  cases c with
  | add_address a => exact unique_keys_add_address hl a
  | add_or_update_address a => exact unique_keys_add_or_update_address hl a
  | touch_address s now =>
    simp only [call.apply, touch_address]
    split
    · exact hl
    · exact unique_keys_add_or_update_address hl _
  | add_address_str s m =>
    simp only [call.apply, add_address_str]
    split
    · exact hl
    · exact unique_keys_add_address hl _
  | add_active_address s now =>
    simp only [call.apply, add_active_address]
    split
    · exact hl
    · exact unique_keys_add_address hl _
  | add_addresses ss m => exact unique_keys_add_addresses from_str ss m l hl
  | remove_address a => exact unique_keys_remove_address hl a
  | remove_address_str s =>
    simp only [call.apply, remove_address_str]
    split
    · exact hl
    · exact unique_keys_remove_address hl _
  | remove_addresses_str ss => exact unique_keys_remove_addresses_str from_str ss l hl
  | update_address a => exact unique_keys_update_address hl a

theorem unique_keys_run (from_str : String → Bool → Option peer_address)
    (calls : List call) :
    ∀ l : List peer_address, unique_keys l → unique_keys (run from_str l calls) := by
  induction calls with
  | nil => intro l hl; exact hl
  | cons c cs ih =>
    intro l hl
    exact ih _ (unique_keys_apply from_str hl c)

/-- Under identity uniqueness two stored records with the same key sit at the same position. -/
theorem unique_keys_index_eq {l : List peer_address} (hl : unique_keys l) {i j : Nat}
    {r q : peer_address} (hi : l[i]? = some r) (hj : l[j]? = some q)
    (hk : same_key r q = true) : i = j := by
  unfold unique_keys at hl
  have hi2 : (l.map peer_address.key)[i]? = some r.key := by simp [hi]
  have hj2 : (l.map peer_address.key)[j]? = some q.key := by simp [hj]
  rw [(same_key_iff r q).1 hk] at hi2
  obtain ⟨hil, hie⟩ := List.getElem?_eq_some.1 hi2
  obtain ⟨hjl, hje⟩ := List.getElem?_eq_some.1 hj2
  exact (hl.getElem_inj_iff).1 (hie.trans hje.symm)

/-- Claim C1. Identity uniqueness is an invariant of the registry: from the empty registry,
after every finite sequence of calls of the methods that change it (`add_address`,
`add_or_update_address`, `update_address`, `add_addresses`, `remove_address`,
`remove_addresses_str`, and the string front ends `touch_address`, `add_address_str`,
`add_active_address`, `remove_address_str`), whatever the parser does and whether or not a
call throws, two records stored at different positions never have the same identity key
`(host, port)`. -/
theorem identity_uniqueness_invariant (from_str : String → Bool → Option peer_address)
    (calls : List call) (i j : Nat) (r q : peer_address) :
    i ≠ j → (run from_str [] calls)[i]? = some r → (run from_str [] calls)[j]? = some q →
      same_key r q = false ∧ (r.host, r.port) ≠ (q.host, q.port) := by
  intro hij hi hj
  have hu : unique_keys (run from_str [] calls) :=
    unique_keys_run from_str calls [] (by simp [unique_keys])
  have hne : same_key r q = false := by
    cases hk : same_key r q with
    | false => rfl
    | true => exact absurd (unique_keys_index_eq hu hi hj hk) hij
  exact ⟨hne, (same_key_false_iff r q).1 hne⟩

/-- Witness of claim C1 on a run of five calls that leaves two records. -/
theorem identity_uniqueness_invariant_witness :
    (run example_from_str []
        [call.add_address_str "10.0.0.1:9876" true, call.touch_address "10.0.0.2:9876" 7,
         call.add_addresses ["10.0.0.1:9876:trx", "10.0.0.2:9876"] false,
         call.update_address ⟨"10.0.0.2", "9876", 3, true, true, 9⟩,
         call.remove_address_str "10.0.0.3:1"])
      = [⟨"10.0.0.1", "9876", 0, false, true, 0⟩, ⟨"10.0.0.2", "9876", 3, true, true, 9⟩] ∧
    same_key ⟨"10.0.0.1", "9876", 0, false, true, 0⟩ ⟨"10.0.0.2", "9876", 3, true, true, 9⟩
      = false ∧
    (("10.0.0.1", "9876") : String × String) ≠ ("10.0.0.2", "9876") :=
  ⟨by decide,
   identity_uniqueness_invariant example_from_str
     [call.add_address_str "10.0.0.1:9876" true, call.touch_address "10.0.0.2:9876" 7,
      call.add_addresses ["10.0.0.1:9876:trx", "10.0.0.2:9876"] false,
      call.update_address ⟨"10.0.0.2", "9876", 3, true, true, 9⟩,
      call.remove_address_str "10.0.0.3:1"]
     0 1 ⟨"10.0.0.1", "9876", 0, false, true, 0⟩ ⟨"10.0.0.2", "9876", 3, true, true, 9⟩
     (by decide) (by decide) (by decide)⟩

/-! ## Insertion -/

theorem find_append_self (l : List peer_address) (x : peer_address) :
    ∃ i, find (l ++ [x]) x = some i :=
  find_isSome_of_mem (List.mem_append_right l (List.mem_singleton_self x)) (same_key_refl x)

theorem add_address_of_mem {l : List peer_address} {x r : peer_address}
    (hr : r ∈ l) (hk : same_key r x = true) : add_address l x = l := by
  obtain ⟨i, hi⟩ := find_isSome_of_mem hr hk
  simp [add_address, hi]

theorem add_address_of_not_mem {l : List peer_address} {x : peer_address}
    (h : ∀ q ∈ l, same_key q x = false) : add_address l x = l ++ [x] := by
  simp [add_address, (find_eq_none_iff l x).2 h]

/-- Claim C2. `add_address` is idempotent: on every list of records and every record `x`,
adding `x` twice leaves exactly the list that adding it once leaves (same records, same
fields, same order). -/
theorem add_address_idempotent (addresses : List peer_address) (x : peer_address) :
    add_address (add_address addresses x) x = add_address addresses x := by
  cases h : find addresses x with
  | some i => simp [add_address, h]
  | none =>
    obtain ⟨j, hj⟩ := find_append_self addresses x
    simp [add_address, h, hj]

/-- Claim C3. `add_address` never overwrites: when the registry already holds a record `r`
with the identity key of `x`, `add_address x` leaves the whole registry unchanged, and so do
`add_address_str` and `add_active_address` on a string that parses to a record with that key
(both return normally); hence every stored field keeps its value. In particular a record
added with `manual = true` is still stored with `manual = true` after the same key is added
again with `manual = false`. -/
theorem add_never_overwrites (from_str : String → Bool → Option peer_address)
    (addresses : List peer_address) (x r : peer_address)
    (hr : r ∈ addresses) (hk : same_key r x = true) :
    add_address addresses x = addresses ∧
    (∀ (s : String) (m : Bool) (p : peer_address), from_str s m = some p → p.key = x.key →
      add_address_str from_str addresses s m = ⟨addresses, true⟩) ∧
    (∀ (s : String) (now : Int) (p : peer_address), from_str s false = some p →
      p.key = x.key → add_active_address from_str addresses s now = ⟨addresses, true⟩) ∧
    add_address (add_address [] { x with manual := true }) { x with manual := false }
      = [{ x with manual := true }] := by
  refine ⟨add_address_of_mem hr hk, ?_, ?_, ?_⟩
  · intro s m p hp hpk
    have : same_key r p = true := by
      rw [same_key_iff] at hk ⊢; rw [hk, hpk]
    simp [add_address_str, hp, add_address_of_mem hr this]
  · intro s now p hp hpk
    have : same_key r { p with last_active := now } = true := by
      rw [same_key_iff] at hk ⊢; rw [hk, ← hpk]; rfl
    simp [add_active_address, hp, add_address_of_mem hr this]
  · have h1 : add_address [] { x with manual := true } = [{ x with manual := true }] := by
      simp [add_address, find]
    rw [h1]
    exact add_address_of_mem (r := { x with manual := true }) (List.mem_singleton_self _)
      ((same_key_iff _ _).2 rfl)

/-- Witness of claim C3: the scenario of the specification, a manual seed added again as a
learned address. -/
theorem add_never_overwrites_witness :
    add_address [⟨"10.0.0.1", "9876", 0, false, true, 5⟩] ⟨"10.0.0.1", "9876", 1, true, false, 8⟩
      = [⟨"10.0.0.1", "9876", 0, false, true, 5⟩] ∧
    add_address_str example_from_str [⟨"10.0.0.1", "9876", 0, false, true, 5⟩]
      "10.0.0.1:9876" false = ⟨[⟨"10.0.0.1", "9876", 0, false, true, 5⟩], true⟩ ∧
    add_active_address example_from_str [⟨"10.0.0.1", "9876", 0, false, true, 5⟩]
      "10.0.0.1:9876:trx" 77 = ⟨[⟨"10.0.0.1", "9876", 0, false, true, 5⟩], true⟩ :=
  have h := add_never_overwrites example_from_str [⟨"10.0.0.1", "9876", 0, false, true, 5⟩]
    ⟨"10.0.0.1", "9876", 1, true, false, 8⟩ ⟨"10.0.0.1", "9876", 0, false, true, 5⟩
    (by decide) (by decide)
  ⟨h.1, h.2.1 "10.0.0.1:9876" false ⟨"10.0.0.1", "9876", 0, false, false, 0⟩ (by decide) (by decide),
   h.2.2.1 "10.0.0.1:9876:trx" 77 ⟨"10.0.0.1", "9876", 1, false, false, 0⟩ (by decide)
     (by decide)⟩

/-! ## Upsert, touch and removal -/

/-- Under identity uniqueness `std::find` stops at any stored record that has the key. -/
theorem find_of_unique_keys {l : List peer_address} (hl : unique_keys l) {i : Nat}
    {r a : peer_address} (hi : l[i]? = some r) (hk : same_key r a = true) :
    find l a = some i := by
  obtain ⟨k, hfind⟩ := find_isSome_of_mem (List.mem_iff_getElem?.2 ⟨i, hi⟩) hk
  obtain ⟨⟨q, hq, hqa⟩, _⟩ := (find_eq_some_iff l a k).1 hfind
  have hrq : same_key r q = true := by
    rw [same_key_iff] at hk hqa ⊢; rw [hk, hqa]
  rw [unique_keys_index_eq hl hi hq hrq]
  exact hfind

/-- Claim C4. Upsert field scoping: on a registry (identity uniqueness holds) that stores at
position `i` a record `r` with the identity key of the incoming record `a`,
`add_or_update_address a` leaves at position `i` the record with the host, port, role and
`last_active` of `r` and with `manual = a.manual`, `receive = a.receive`, keeps the number
of records and leaves every other position as it was; when no stored record has the key of
`a`, the full record `a` is appended. -/
theorem upsert_field_scoping (addresses : List peer_address) (a : peer_address)
    (hu : unique_keys addresses) :
    (∀ (i : Nat) (r : peer_address), addresses[i]? = some r → same_key r a = true →
      (add_or_update_address addresses a)[i]? =
          some { host := r.host, port := r.port, address_type := r.address_type,
                 receive := a.receive, manual := a.manual, last_active := r.last_active } ∧
        (add_or_update_address addresses a).length = addresses.length ∧
        ∀ j, j ≠ i → (add_or_update_address addresses a)[j]? = addresses[j]?) ∧
    ((∀ q ∈ addresses, same_key q a = false) →
      add_or_update_address addresses a = addresses ++ [a]) := by
  constructor
  · intro i r hi hk
    have hf := find_of_unique_keys hu hi hk
    simp only [add_or_update_address, hf]
    refine ⟨?_, by simp, ?_⟩
    · rw [List.getElem?_modify, hi]; simp
    · intro j hj
      rw [List.getElem?_modify]
      cases addresses[j]? with
      | none => rfl
      | some q => simp [Ne.symm hj]
  · intro h
    simp [add_or_update_address, (find_eq_none_iff addresses a).2 h]

/-- Witness of claim C4: the scenario of the specification. The stored manual seed with role
`0` and stamp `5` is upserted with role `1`, stamp `8`, `manual = false`, `receive = true`;
an unknown key is appended whole. -/
theorem upsert_field_scoping_witness :
    unique_keys [⟨"10.0.0.2", "9876", 2, false, false, 1⟩, ⟨"10.0.0.1", "9876", 0, false, true, 5⟩] ∧
    (add_or_update_address
        [⟨"10.0.0.2", "9876", 2, false, false, 1⟩, ⟨"10.0.0.1", "9876", 0, false, true, 5⟩]
        ⟨"10.0.0.1", "9876", 1, true, false, 8⟩)[1]?
      = some ⟨"10.0.0.1", "9876", 0, true, false, 5⟩ ∧
    add_or_update_address
        [⟨"10.0.0.2", "9876", 2, false, false, 1⟩, ⟨"10.0.0.1", "9876", 0, false, true, 5⟩]
        ⟨"10.0.0.3", "9876", 1, true, false, 8⟩
      = [⟨"10.0.0.2", "9876", 2, false, false, 1⟩, ⟨"10.0.0.1", "9876", 0, false, true, 5⟩,
         ⟨"10.0.0.3", "9876", 1, true, false, 8⟩] :=
  ⟨by decide,
   ((upsert_field_scoping
      [⟨"10.0.0.2", "9876", 2, false, false, 1⟩, ⟨"10.0.0.1", "9876", 0, false, true, 5⟩]
      ⟨"10.0.0.1", "9876", 1, true, false, 8⟩ (by decide)).1 1
      ⟨"10.0.0.1", "9876", 0, false, true, 5⟩ (by decide) (by decide)).1,
   (upsert_field_scoping
      [⟨"10.0.0.2", "9876", 2, false, false, 1⟩, ⟨"10.0.0.1", "9876", 0, false, true, 5⟩]
      ⟨"10.0.0.3", "9876", 1, true, false, 8⟩ (by decide)).2 (by decide)⟩

/-- Claim C5. Touch non-propagation: for a string `s` that parses to `p`, `touch_address s`
returns normally; every stored record with the key of `p` is afterwards at the same
position with the same key and the same `last_active`; and when no stored record has that
key, the call appends the parsed record stamped with the clock value `now` it read. -/
theorem touch_non_propagation (from_str : String → Bool → Option peer_address)
    (addresses : List peer_address) (s : String) (now : Int) (p : peer_address)
    (hp : from_str s false = some p) :
    (touch_address from_str addresses s now).returned = true ∧
    (∀ (i : Nat) (r : peer_address), addresses[i]? = some r → same_key r p = true →
      ∃ r2, (touch_address from_str addresses s now).addresses[i]? = some r2 ∧
        r2.host = r.host ∧ r2.port = r.port ∧ r2.last_active = r.last_active) ∧
    ((∀ q ∈ addresses, same_key q p = false) →
      (touch_address from_str addresses s now).addresses
          = addresses ++ [{ p with last_active := now }] ∧
        same_key { p with last_active := now } p = true ∧
        ({ p with last_active := now } : peer_address).last_active = now) := by
  refine ⟨by simp [touch_address, hp], ?_, ?_⟩
  · intro i r hi hk
    have hk2 : same_key r { p with last_active := now } = true := by
      rw [same_key_iff] at hk ⊢; rw [hk]; rfl
    obtain ⟨k, hfind⟩ := find_isSome_of_mem (List.mem_iff_getElem?.2 ⟨i, hi⟩) hk2
    simp only [touch_address, hp, add_or_update_address, hfind]
    rw [List.getElem?_modify, hi]
    by_cases hki : k = i <;> simp [hki]
  · intro h
    have h2 : ∀ q ∈ addresses, same_key q { p with last_active := now } = false := by
      intro q hq
      have := h q hq
      rw [same_key_false_iff] at this ⊢
      exact this
    refine ⟨?_, (same_key_iff _ _).2 rfl, rfl⟩
    simp [touch_address, hp, add_or_update_address, (find_eq_none_iff addresses _).2 h2]

/-- Witness of claim C5: touching a stored address at clock `77` keeps its stamp `5`, and
touching an unknown one appends it stamped `77`. -/
theorem touch_non_propagation_witness :
    (∃ r2, (touch_address example_from_str [⟨"10.0.0.1", "9876", 0, false, true, 5⟩]
        "10.0.0.1:9876" 77).addresses[0]? = some r2 ∧
      r2.host = "10.0.0.1" ∧ r2.port = "9876" ∧ r2.last_active = 5) ∧
    (touch_address example_from_str [⟨"10.0.0.1", "9876", 0, false, true, 5⟩]
        "10.0.0.2:9876" 77).addresses
      = [⟨"10.0.0.1", "9876", 0, false, true, 5⟩, ⟨"10.0.0.2", "9876", 0, false, false, 77⟩] :=
  ⟨(touch_non_propagation example_from_str [⟨"10.0.0.1", "9876", 0, false, true, 5⟩]
      "10.0.0.1:9876" 77 ⟨"10.0.0.1", "9876", 0, false, false, 0⟩ (by decide)).2.1 0
      ⟨"10.0.0.1", "9876", 0, false, true, 5⟩ (by decide) (by decide),
   ((touch_non_propagation example_from_str [⟨"10.0.0.1", "9876", 0, false, true, 5⟩]
      "10.0.0.2:9876" 77 ⟨"10.0.0.2", "9876", 0, false, false, 0⟩ (by decide)).2.2
      (by decide)).1⟩

/-- Under identity uniqueness, erasing the record `std::find` stopped at leaves no record
with that key. -/
theorem eraseIdx_find_no_key {l : List peer_address} (hl : unique_keys l) {i : Nat}
    {x : peer_address} (hf : find l x = some i) :
    ∀ q ∈ l.eraseIdx i, same_key q x = false := by
  intro q hq
  obtain ⟨j, hj⟩ := List.mem_iff_getElem?.1 hq
  rw [List.getElem?_eraseIdx] at hj
  cases hk : same_key q x with
  | false => rfl
  | true =>
    exfalso
    by_cases hji : j < i
    · rw [if_pos hji] at hj
      have := (find_of_unique_keys hl hj hk).symm.trans hf
      simp only [Option.some.injEq] at this
      omega
    · rw [if_neg hji] at hj
      have := (find_of_unique_keys hl hj hk).symm.trans hf
      simp only [Option.some.injEq] at this
      omega

theorem remove_address_no_key {l : List peer_address} (hl : unique_keys l)
    (x : peer_address) : ∀ q ∈ remove_address l x, same_key q x = false := by
  unfold remove_address
  split
  · next i hf => exact eraseIdx_find_no_key hl hf
  · next hf => exact (find_eq_none_iff l x).1 hf

/-- Claim C6. Remove then add again: on a registry (identity uniqueness holds) and for every
record `x`, after `remove_address x` followed by `add_address x` the record `x` itself is
stored, with all its fields and as the last record, and every stored record that has the
identity key of `x` is equal to `x` in every field; nothing of a record stored under that
key before the removal is left. -/
theorem remove_then_add (addresses : List peer_address) (x : peer_address)
    (hu : unique_keys addresses) :
    add_address (remove_address addresses x) x = remove_address addresses x ++ [x] ∧
    x ∈ add_address (remove_address addresses x) x ∧
    ∀ q ∈ add_address (remove_address addresses x) x, same_key q x = true → q = x := by
  have hno := remove_address_no_key hu x
  have heq := add_address_of_not_mem hno
  refine ⟨heq, ?_, ?_⟩
  · rw [heq]; simp
  · intro q hq hk
    rw [heq, List.mem_append, List.mem_singleton] at hq
    rcases hq with hq | hq
    · rw [hno q hq] at hk; exact absurd hk (by decide)
    · exact hq

/-- Witness of claim C6: the stored manual seed with stamp `5` is removed and added again as
a learned address with role `1` and stamp `8`. -/
theorem remove_then_add_witness :
    unique_keys [⟨"10.0.0.1", "9876", 0, false, true, 5⟩, ⟨"10.0.0.2", "9876", 2, false, false, 1⟩] ∧
    add_address
        (remove_address
          [⟨"10.0.0.1", "9876", 0, false, true, 5⟩, ⟨"10.0.0.2", "9876", 2, false, false, 1⟩]
          ⟨"10.0.0.1", "9876", 1, true, false, 8⟩)
        ⟨"10.0.0.1", "9876", 1, true, false, 8⟩
      = remove_address
          [⟨"10.0.0.1", "9876", 0, false, true, 5⟩, ⟨"10.0.0.2", "9876", 2, false, false, 1⟩]
          ⟨"10.0.0.1", "9876", 1, true, false, 8⟩ ++ [⟨"10.0.0.1", "9876", 1, true, false, 8⟩] ∧
    remove_address
        [⟨"10.0.0.1", "9876", 0, false, true, 5⟩, ⟨"10.0.0.2", "9876", 2, false, false, 1⟩]
        ⟨"10.0.0.1", "9876", 1, true, false, 8⟩
      = [⟨"10.0.0.2", "9876", 2, false, false, 1⟩] :=
  ⟨by decide,
   (remove_then_add
      [⟨"10.0.0.1", "9876", 0, false, true, 5⟩, ⟨"10.0.0.2", "9876", 2, false, false, 1⟩]
      ⟨"10.0.0.1", "9876", 1, true, false, 8⟩ (by decide)).1,
   by decide⟩

/-! ## Snapshots and queries -/

theorem foldl_insert_eq (to_str : peer_address → String) (p : peer_address → Bool)
    (l : List peer_address) (acc : Finset String) :
    l.foldl (fun result item => if p item then insert (to_str item) result else result) acc
      = acc ∪ ((l.filter p).map to_str).toFinset := by
  induction l generalizing acc with
  | nil => simp
  | cons x xs ih =>
    rw [List.foldl_cons, ih]
    by_cases hx : p x = true
    · simp only [hx, if_true, List.filter_cons_of_pos, List.map_cons, List.toFinset_cons]
      ext str
      simp only [Finset.mem_union, Finset.mem_insert]
      tauto
    · simp [hx]

theorem get_addresses_eq (to_str : peer_address → String) (l : List peer_address) :
    get_addresses to_str l = (l.map to_str).toFinset := by
  have := foldl_insert_eq to_str (fun _ => true) l ∅
  simpa [get_addresses] using this

theorem get_manual_addresses_eq (to_str : peer_address → String) (l : List peer_address) :
    get_manual_addresses to_str l = ((l.filter (fun r => r.manual)).map to_str).toFinset := by
  have := foldl_insert_eq to_str (fun r => r.manual) l ∅
  simpa [get_manual_addresses] using this

/-- Claim C7. Diff correctness: for every registry and every set `S` of strings,
`get_diff_addresses S false` is the set of the serialized stored records minus `S`, and
`get_diff_addresses S true` is the set of the serialized stored records with `manual = true`
minus `S`; in particular, in a registry of three records of which exactly `m` is manual, the
diff against the one string of `m` is empty and the diff against the empty set is that one
string. -/
theorem diff_correctness (to_str : peer_address → String) (addresses : List peer_address)
    (S : Finset String) :
    get_diff_addresses to_str addresses S false = (addresses.map to_str).toFinset \ S ∧
    get_diff_addresses to_str addresses S true
      = ((addresses.filter (fun r => r.manual)).map to_str).toFinset \ S ∧
    (∀ m : peer_address, addresses.length = 3 →
      addresses.filter (fun r => r.manual) = [m] →
        get_diff_addresses to_str addresses {to_str m} true = ∅ ∧
        get_diff_addresses to_str addresses ∅ true = {to_str m}) := by
  have h1 : ∀ T : Finset String,
      get_diff_addresses to_str addresses T false = (addresses.map to_str).toFinset \ T := by
    intro T
    simp only [get_diff_addresses, Bool.false_eq_true, if_false, get_addresses_eq]
    ext str; simp [Finset.mem_sdiff]
  have h2 : ∀ T : Finset String, get_diff_addresses to_str addresses T true
      = ((addresses.filter (fun r => r.manual)).map to_str).toFinset \ T := by
    intro T
    simp only [get_diff_addresses, if_true, get_manual_addresses_eq]
    ext str; simp [Finset.mem_sdiff]
  refine ⟨h1 S, h2 S, ?_⟩
  intro m _ hm
  rw [h2, h2, hm]
  simp

/-- Witness of claim C7: three records, the second one manual. -/
theorem diff_correctness_witness :
    get_diff_addresses example_to_str
        [⟨"10.0.0.1", "9876", 0, false, false, 5⟩, ⟨"10.0.0.2", "9876", 2, false, true, 1⟩,
         ⟨"10.0.0.3", "9876", 0, false, false, 0⟩] {"10.0.0.2:9876"} true = ∅ ∧
    get_diff_addresses example_to_str
        [⟨"10.0.0.1", "9876", 0, false, false, 5⟩, ⟨"10.0.0.2", "9876", 2, false, true, 1⟩,
         ⟨"10.0.0.3", "9876", 0, false, false, 0⟩] ∅ true = {"10.0.0.2:9876"} :=
  (diff_correctness example_to_str
      [⟨"10.0.0.1", "9876", 0, false, false, 5⟩, ⟨"10.0.0.2", "9876", 2, false, true, 1⟩,
       ⟨"10.0.0.3", "9876", 0, false, false, 0⟩] ∅).2.2
    ⟨"10.0.0.2", "9876", 2, false, true, 1⟩ (by decide) (by decide)

theorem get_latest_active_addresses_eq (to_str : peer_address → String)
    (l : List peer_address) (now secs : Int) (manual : Bool) :
    get_latest_active_addresses to_str l now secs manual
      = ((l.filter (fun r => (!manual || r.manual == manual) &&
            decide (r.last_active ≥ now - secs * 1000000))).map to_str).toFinset := by
  have := foldl_insert_eq to_str
    (fun r => (!manual || r.manual == manual) && decide (r.last_active ≥ now - secs * 1000000))
    l ∅
  simpa [get_latest_active_addresses, fc_seconds] using this

/-- Claim C8. Active window: for every registry, clock value `now` (microseconds) and
duration of `secs` seconds, `get_latest_active_addresses secs false` is exactly the set of
the serialized stored records with `last_active ≥ now - secs`, whatever their manual flag,
and `get_latest_active_addresses secs true` is the same set restricted to the records with
`manual = true`. -/
theorem active_window (to_str : peer_address → String) (addresses : List peer_address)
    (now secs : Int) :
    get_latest_active_addresses to_str addresses now secs false
      = ((addresses.filter
            (fun r => decide (r.last_active ≥ now - secs * 1000000))).map to_str).toFinset ∧
    get_latest_active_addresses to_str addresses now secs true
      = ((addresses.filter
            (fun r => r.manual && decide (r.last_active ≥ now - secs * 1000000))).map
              to_str).toFinset ∧
    (∀ str : String, str ∈ get_latest_active_addresses to_str addresses now secs false ↔
      ∃ r ∈ addresses, r.last_active ≥ now - secs * 1000000 ∧ to_str r = str) ∧
    (∀ str : String, str ∈ get_latest_active_addresses to_str addresses now secs true ↔
      ∃ r ∈ addresses, r.manual = true ∧ r.last_active ≥ now - secs * 1000000 ∧
        to_str r = str) := by
  have h1 := get_latest_active_addresses_eq to_str addresses now secs false
  have h2 := get_latest_active_addresses_eq to_str addresses now secs true
  simp only [Bool.not_false, Bool.true_or, Bool.true_and, Bool.not_true, Bool.false_or,
    beq_true] at h1 h2
  refine ⟨h1, h2, ?_, ?_⟩
  · intro str
    rw [h1]
    simp [and_assoc]
  · intro str
    rw [h2]
    simp [and_assoc]

/-- Claim C9, as stated, fails: at clock `1700000000000000` microseconds a window of
`1700000000` seconds opens at the epoch itself, and the only stored record, never observed
active (`last_active = 0`), is in the result, under either value of the manual flag. -/
theorem never_active_matches_wide_window :
    (⟨"10.0.0.1", "9876", 0, false, true, 0⟩ : peer_address).last_active = 0 ∧
    example_to_str ⟨"10.0.0.1", "9876", 0, false, true, 0⟩ ∈
      get_latest_active_addresses example_to_str [⟨"10.0.0.1", "9876", 0, false, true, 0⟩]
        1700000000000000 1700000000 false ∧
    example_to_str ⟨"10.0.0.1", "9876", 0, false, true, 0⟩ ∈
      get_latest_active_addresses example_to_str [⟨"10.0.0.1", "9876", 0, false, true, 0⟩]
        1700000000000000 1700000000 true := by
  decide

/-- Claim C9, amended. When the window opens strictly after the epoch
(`0 < now - secs`), records never observed active never match: the result is the one
computed on the registry without the records of `last_active = 0`; and on a registry with
identity uniqueness whose stored records serialize to the same string only when they have
the same identity key, the string of a stored record with `last_active = 0` is not in the
result, under either value of the manual flag. -/
theorem never_active_excluded (to_str : peer_address → String)
    (addresses : List peer_address) (now secs : Int) (manual : Bool)
    (hw : 0 < now - secs * 1000000) :
    get_latest_active_addresses to_str addresses now secs manual
      = get_latest_active_addresses to_str
          (addresses.filter (fun q => decide (q.last_active ≠ 0))) now secs manual ∧
    ((∀ a ∈ addresses, ∀ b ∈ addresses, to_str a = to_str b → same_key a b = true) →
      unique_keys addresses →
      ∀ r ∈ addresses, r.last_active = 0 →
        to_str r ∉ get_latest_active_addresses to_str addresses now secs manual) := by
  constructor
  · rw [get_latest_active_addresses_eq, get_latest_active_addresses_eq, List.filter_filter]
    congr 2
    apply List.filter_congr
    intro q _
    by_cases h0 : q.last_active = 0
    · have : ¬ (now - secs * 1000000 ≤ 0) := by omega
      simp [h0, this]
    · simp [h0]
  · intro hinj hu r hr h0 hmem
    rw [get_latest_active_addresses_eq, List.mem_toFinset, List.mem_map] at hmem
    obtain ⟨q, hq, hqr⟩ := hmem
    rw [List.mem_filter] at hq
    obtain ⟨hql, hsel⟩ := hq
    obtain ⟨i, hi⟩ := List.mem_iff_getElem?.1 hql
    obtain ⟨j, hj⟩ := List.mem_iff_getElem?.1 hr
    have hij := unique_keys_index_eq hu hi hj (hinj q hql r hr hqr)
    subst hij
    rw [hi] at hj
    simp only [Option.some.injEq] at hj
    subst hj
    simp only [Bool.and_eq_true, decide_eq_true_eq] at hsel
    omega

/-- Witness of the amended claim C9: a window of one hour at the same clock. -/
theorem never_active_excluded_witness :
    (0 : Int) < 1700000000000000 - 3600 * 1000000 ∧
    example_to_str ⟨"10.0.0.1", "9876", 0, false, true, 0⟩ ∉
      get_latest_active_addresses example_to_str
        [⟨"10.0.0.1", "9876", 0, false, true, 0⟩,
         ⟨"10.0.0.2", "9876", 0, false, true, 1699999999000000⟩]
        1700000000000000 3600 true :=
  ⟨by decide,
   (never_active_excluded example_to_str
      [⟨"10.0.0.1", "9876", 0, false, true, 0⟩,
       ⟨"10.0.0.2", "9876", 0, false, true, 1699999999000000⟩]
      1700000000000000 3600 true (by decide)).2
     (by decide) (by decide) ⟨"10.0.0.1", "9876", 0, false, true, 0⟩ (by decide) rfl⟩

/-! ## Wholesale update -/

/-- Claim C10. `update_address` replaces wholesale and never inserts: on a registry
(identity uniqueness holds) that stores at position `i` a record `r` with the identity key
of `u`, after `update_address u` position `i` holds `u` itself, equal in every field, the
number of records is the same and every other position is as it was; when no stored record
has the key of `u` the registry is left unchanged. -/
theorem update_replaces_wholesale (addresses : List peer_address) (u : peer_address)
    (hu : unique_keys addresses) :
    (∀ (i : Nat) (r : peer_address), addresses[i]? = some r → same_key r u = true →
      update_address addresses u = addresses.set i u ∧
        (update_address addresses u)[i]? = some u ∧
        (update_address addresses u).length = addresses.length ∧
        ∀ j, j ≠ i → (update_address addresses u)[j]? = addresses[j]?) ∧
    ((∀ q ∈ addresses, same_key q u = false) → update_address addresses u = addresses) := by
  constructor
  · intro i r hi hk
    have hf := find_of_unique_keys hu hi hk
    have hlt := find_lt_length hf
    have heq : update_address addresses u = addresses.set i u := by
      simp [update_address, hf]
    refine ⟨heq, ?_, ?_, ?_⟩
    · rw [heq, List.getElem?_set]; simp [hlt]
    · rw [heq]; simp
    · intro j hj
      rw [heq, List.getElem?_set]; simp [Ne.symm hj]
  · intro h
    simp [update_address, (find_eq_none_iff addresses u).2 h]

/-- Witness of claim C10: the second record is replaced in role, flags and stamp, and an
unknown key changes nothing. -/
theorem update_replaces_wholesale_witness :
    unique_keys [⟨"10.0.0.2", "9876", 2, false, false, 1⟩, ⟨"10.0.0.1", "9876", 0, false, true, 5⟩] ∧
    update_address
        [⟨"10.0.0.2", "9876", 2, false, false, 1⟩, ⟨"10.0.0.1", "9876", 0, false, true, 5⟩]
        ⟨"10.0.0.1", "9876", 1, true, false, 8⟩
      = [⟨"10.0.0.2", "9876", 2, false, false, 1⟩, ⟨"10.0.0.1", "9876", 1, true, false, 8⟩] ∧
    update_address
        [⟨"10.0.0.2", "9876", 2, false, false, 1⟩, ⟨"10.0.0.1", "9876", 0, false, true, 5⟩]
        ⟨"10.0.0.3", "9876", 1, true, false, 8⟩
      = [⟨"10.0.0.2", "9876", 2, false, false, 1⟩, ⟨"10.0.0.1", "9876", 0, false, true, 5⟩] :=
  ⟨by decide,
   ((update_replaces_wholesale
      [⟨"10.0.0.2", "9876", 2, false, false, 1⟩, ⟨"10.0.0.1", "9876", 0, false, true, 5⟩]
      ⟨"10.0.0.1", "9876", 1, true, false, 8⟩ (by decide)).1 1
      ⟨"10.0.0.1", "9876", 0, false, true, 5⟩ (by decide) (by decide)).1,
   (update_replaces_wholesale
      [⟨"10.0.0.2", "9876", 2, false, false, 1⟩, ⟨"10.0.0.1", "9876", 0, false, true, 5⟩]
      ⟨"10.0.0.3", "9876", 1, true, false, 8⟩ (by decide)).2 (by decide)⟩

/-! ## Removal -/

theorem find_congr_key (l : List peer_address) {a b : peer_address} (h : a.key = b.key) :
    find l a = find l b := by
  have hk : ∀ q, same_key q a = same_key q b := by
    intro q
    cases hb : same_key q b with
    | true => rw [same_key_iff] at hb ⊢; rw [hb, h]
    | false => rw [same_key_false_iff] at hb ⊢; rw [h]; exact hb
  induction l with
  | nil => rfl
  | cons x xs ih => simp [find, hk, ih]

theorem remove_address_congr_key (l : List peer_address) {a b : peer_address}
    (h : a.key = b.key) : remove_address l a = remove_address l b := by
  simp [remove_address, find_congr_key l h]

/-- Claim C11. `remove_address` deletes the matching record: on a registry with identity
uniqueness, after `remove_address x` no stored record has the key of `x`, so `has_address`
answers `false` for every string that parses to that key; `remove_address_str` of a string
that parses to that key returns normally and leaves the same registry; and when no stored
record had the key of `x`, both leave the registry as it was. -/
theorem remove_deletes_matching (from_str : String → Bool → Option peer_address)
    (addresses : List peer_address) (x : peer_address) (hu : unique_keys addresses) :
    (∀ q ∈ remove_address addresses x, same_key q x = false) ∧
    (∀ (s : String) (p : peer_address), from_str s false = some p → p.key = x.key →
      has_address from_str (remove_address addresses x) s = some false ∧
      remove_address_str from_str addresses s = ⟨remove_address addresses x, true⟩) ∧
    ((∀ q ∈ addresses, same_key q x = false) →
      remove_address addresses x = addresses ∧
      ∀ (s : String) (p : peer_address), from_str s false = some p → p.key = x.key →
        remove_address_str from_str addresses s = ⟨addresses, true⟩) := by
  have hno := remove_address_no_key hu x
  have habs : (∀ q ∈ addresses, same_key q x = false) → remove_address addresses x = addresses := by
    intro h
    simp [remove_address, (find_eq_none_iff addresses x).2 h]
  refine ⟨hno, ?_, ?_⟩
  · intro s p hp hpk
    constructor
    · have hnone : find (remove_address addresses x) p = none := by
        rw [find_congr_key _ hpk]
        exact (find_eq_none_iff _ x).2 hno
      simp [has_address, hp, hnone]
    · simp [remove_address_str, hp, remove_address_congr_key addresses hpk]
  · intro h
    refine ⟨habs h, ?_⟩
    intro s p hp hpk
    simp [remove_address_str, hp, remove_address_congr_key addresses hpk, habs h]

/-- Witness of claim C11: the stored seed is removed, by record and by string, and
`has_address` no longer finds it. -/
theorem remove_deletes_matching_witness :
    unique_keys [⟨"10.0.0.1", "9876", 0, false, true, 5⟩, ⟨"10.0.0.2", "9876", 2, false, false, 1⟩] ∧
    has_address example_from_str
        (remove_address
          [⟨"10.0.0.1", "9876", 0, false, true, 5⟩, ⟨"10.0.0.2", "9876", 2, false, false, 1⟩]
          ⟨"10.0.0.1", "9876", 1, true, false, 8⟩)
        "10.0.0.1:9876" = some false ∧
    remove_address_str example_from_str
        [⟨"10.0.0.1", "9876", 0, false, true, 5⟩, ⟨"10.0.0.2", "9876", 2, false, false, 1⟩]
        "10.0.0.1:9876"
      = ⟨remove_address
          [⟨"10.0.0.1", "9876", 0, false, true, 5⟩, ⟨"10.0.0.2", "9876", 2, false, false, 1⟩]
          ⟨"10.0.0.1", "9876", 1, true, false, 8⟩, true⟩ ∧
    remove_address
        [⟨"10.0.0.1", "9876", 0, false, true, 5⟩, ⟨"10.0.0.2", "9876", 2, false, false, 1⟩]
        ⟨"10.0.0.1", "9876", 1, true, false, 8⟩
      = [⟨"10.0.0.2", "9876", 2, false, false, 1⟩] :=
  have h := (remove_deletes_matching example_from_str
    [⟨"10.0.0.1", "9876", 0, false, true, 5⟩, ⟨"10.0.0.2", "9876", 2, false, false, 1⟩]
    ⟨"10.0.0.1", "9876", 1, true, false, 8⟩ (by decide)).2.1 "10.0.0.1:9876"
    ⟨"10.0.0.1", "9876", 0, false, false, 0⟩ (by decide) (by decide)
  ⟨by decide, h.1, h.2, by decide⟩

theorem remove_address_cons (a : peer_address) (t : List peer_address) (x : peer_address) :
    remove_address (a :: t) x = if same_key a x then t else a :: remove_address t x := by
  by_cases ha : same_key a x = true
  · simp [remove_address, find, ha]
  · simp only [Bool.not_eq_true] at ha
    cases hf : find t x with
    | none => simp [remove_address, find, ha, hf]
    | some k => simp [remove_address, find, ha, hf]

/-- Under identity uniqueness `remove_address` keeps exactly the records with another key. -/
theorem remove_address_eq_filter {l : List peer_address} (hl : unique_keys l)
    (x : peer_address) : remove_address l x = l.filter (fun q => !same_key q x) := by
  induction l with
  | nil => simp [remove_address, find]
  | cons a t ih =>
    have ht : unique_keys t := by
      unfold unique_keys at hl ⊢
      exact (List.nodup_cons.1 hl).2
    rw [remove_address_cons]
    by_cases ha : same_key a x = true
    · have hall : ∀ q ∈ t, same_key q x = false := by
        intro q hq
        have hne : a.key ≠ q.key := by
          unfold unique_keys at hl
          intro h
          exact (List.nodup_cons.1 hl).1 (h ▸ List.mem_map_of_mem _ hq)
        rw [same_key_false_iff]
        rw [same_key_iff] at ha
        intro h
        exact hne (ha.trans h.symm)
      have hfilter : t.filter (fun q => !same_key q x) = t := by
        rw [List.filter_eq_self]
        intro q hq
        simp [hall q hq]
      simp [ha, hfilter]
    · simp only [Bool.not_eq_true] at ha
      simp [ha, ih ht]

theorem remove_addresses_str_cons (from_str : String → Bool → Option peer_address)
    (l : List peer_address) (s : String) (rest : List String) (pa : peer_address)
    (hp : from_str s false = some pa) :
    remove_addresses_str from_str l (s :: rest)
      = remove_addresses_str from_str (remove_address l pa) rest := by
  cases hf : find l pa with
  | none => simp [remove_addresses_str, hp, hf, remove_address]
  | some k => simp [remove_addresses_str, hp, hf, remove_address]

theorem key_among_eq_true_iff (from_str : String → Bool → Option peer_address)
    (strs : List String) (r : peer_address) :
    key_among from_str strs r = true ↔
      ∃ s ∈ strs, ∃ p, from_str s false = some p ∧ same_key r p = true := by
  unfold key_among
  rw [List.any_eq_true]
  constructor
  · rintro ⟨s, hs, h⟩
    cases hp : from_str s false with
    | none => simp [hp] at h
    | some p => exact ⟨s, hs, p, hp, by simpa [hp] using h⟩
  · rintro ⟨s, hs, p, hp, h⟩
    exact ⟨s, hs, by simpa [hp] using h⟩

theorem remove_addresses_str_eq_filter (from_str : String → Bool → Option peer_address)
    (strs : List String) (hparse : ∀ s ∈ strs, (from_str s false).isSome = true) :
    ∀ l : List peer_address, unique_keys l →
      remove_addresses_str from_str l strs
        = ⟨l.filter (fun r => !key_among from_str strs r), true⟩ := by
  induction strs with
  | nil => intro l _; simp [remove_addresses_str, key_among]
  | cons s rest ih =>
    intro l hl
    obtain ⟨pa, hp⟩ := Option.isSome_iff_exists.1 (hparse s (List.mem_cons_self s rest))
    rw [remove_addresses_str_cons from_str l s rest pa hp,
      ih (fun t ht => hparse t (List.mem_cons_of_mem s ht)) _ (unique_keys_remove_address hl pa),
      remove_address_eq_filter hl, List.filter_filter]
    congr 1
    apply List.filter_congr
    intro r _
    simp [key_among, hp, Bool.and_comm]

/-- Claim C12. `remove_addresses_str` deletes every matching record and skips the rest: on a
registry with identity uniqueness and for every set of strings that all parse, visited in
any order, the call returns normally; afterwards no stored record has the identity key
that a string of the set parses to, and the stored records are exactly the previous
records whose key is not the parsed key of a string of the set, unchanged and in their
previous order. -/
theorem remove_addresses_str_deletes (from_str : String → Bool → Option peer_address)
    (addresses : List peer_address) (strs : List String) (hu : unique_keys addresses)
    (hparse : ∀ s ∈ strs, (from_str s false).isSome = true) :
    remove_addresses_str from_str addresses strs
      = ⟨addresses.filter (fun r => !key_among from_str strs r), true⟩ ∧
    (∀ r ∈ (remove_addresses_str from_str addresses strs).addresses,
      ∀ s ∈ strs, ∀ p, from_str s false = some p → same_key r p = false) ∧
    (∀ r ∈ addresses,
      (∀ s ∈ strs, ∀ p, from_str s false = some p → same_key r p = false) →
        r ∈ (remove_addresses_str from_str addresses strs).addresses) := by
  have heq := remove_addresses_str_eq_filter from_str strs hparse addresses hu
  refine ⟨heq, ?_, ?_⟩
  · intro r hr s hs p hp
    rw [heq] at hr
    simp only [List.mem_filter, Bool.not_eq_eq_eq_not, Bool.not_true] at hr
    cases hk : same_key r p with
    | false => rfl
    | true =>
      have := (key_among_eq_true_iff from_str strs r).2 ⟨s, hs, p, hp, hk⟩
      rw [hr.2] at this
      exact absurd this (by decide)
  · intro r hr hall
    rw [heq]
    simp only [List.mem_filter, Bool.not_eq_eq_eq_not, Bool.not_true]
    refine ⟨hr, ?_⟩
    cases hk : key_among from_str strs r with
    | false => rfl
    | true =>
      obtain ⟨s, hs, p, hp, hsk⟩ := (key_among_eq_true_iff from_str strs r).1 hk
      rw [hall s hs p hp] at hsk
      exact absurd hsk (by decide)

/-- Witness of claim C12: two strings with the same key and one with a key that is not
stored; the one matching record goes, the other two stay in order. -/
theorem remove_addresses_str_deletes_witness :
    unique_keys [⟨"10.0.0.3", "9876", 0, false, true, 5⟩, ⟨"10.0.0.1", "9876", 2, false, false, 1⟩,
      ⟨"10.0.0.4", "9876", 0, true, false, 0⟩] ∧
    remove_addresses_str example_from_str
        [⟨"10.0.0.3", "9876", 0, false, true, 5⟩, ⟨"10.0.0.1", "9876", 2, false, false, 1⟩,
          ⟨"10.0.0.4", "9876", 0, true, false, 0⟩]
        ["10.0.0.1:9876:trx", "10.0.0.2:9876", "10.0.0.1:9876"]
      = ⟨[⟨"10.0.0.3", "9876", 0, false, true, 5⟩, ⟨"10.0.0.4", "9876", 0, true, false, 0⟩], true⟩ :=
  ⟨by decide,
   (remove_addresses_str_deletes example_from_str
      [⟨"10.0.0.3", "9876", 0, false, true, 5⟩, ⟨"10.0.0.1", "9876", 2, false, false, 1⟩,
        ⟨"10.0.0.4", "9876", 0, true, false, 0⟩]
      ["10.0.0.1:9876:trx", "10.0.0.2:9876", "10.0.0.1:9876"] (by decide) (by decide)).1.trans
     (by decide)⟩

/-! ## Bulk insertion -/

theorem add_addresses_cons (from_str : String → Bool → Option peer_address)
    (l : List peer_address) (s : String) (rest : List String) (m : Bool) (pa : peer_address)
    (hp : from_str s false = some pa) :
    add_addresses from_str l (s :: rest) m
      = add_addresses from_str
          (if find l pa = none then l ++ [{ pa with manual := m }] else l) rest m := by
  by_cases hf : find l pa = none
  · simp [add_addresses, hp, hf]
  · simp [add_addresses, hp, hf]

/-- The records `add_addresses` leaves are the previous ones followed by new ones that all
carry the flag of the call. -/
theorem add_addresses_appends (from_str : String → Bool → Option peer_address)
    (strs : List String) (m : Bool) :
    ∀ l : List peer_address, ∃ fresh : List peer_address,
      (add_addresses from_str l strs m).addresses = l ++ fresh ∧
        ∀ q ∈ fresh, q.manual = m := by
  induction strs with
  | nil => intro l; exact ⟨[], by simp [add_addresses]⟩
  | cons s rest ih =>
    intro l
    cases hp : from_str s false with
    | none => exact ⟨[], by simp [add_addresses, hp]⟩
    | some pa =>
      rw [add_addresses_cons from_str l s rest m pa hp]
      by_cases hf : find l pa = none
      · obtain ⟨fresh, hfresh, hman⟩ := ih (l ++ [{ pa with manual := m }])
        refine ⟨{ pa with manual := m } :: fresh, ?_, ?_⟩
        · simp [hf, hfresh]
        · intro q hq
          rcases List.mem_cons.1 hq with h | h
          · rw [h]
          · exact hman q h
      · obtain ⟨fresh, hfresh, hman⟩ := ih l
        exact ⟨fresh, by simp [hf, hfresh], hman⟩

theorem add_addresses_covers (from_str : String → Bool → Option peer_address)
    (strs : List String) (m : Bool)
    (hparse : ∀ s ∈ strs, (from_str s false).isSome = true) :
    ∀ l : List peer_address,
      (add_addresses from_str l strs m).returned = true ∧
      ∀ s ∈ strs, ∀ p, from_str s false = some p →
        ∃ q ∈ (add_addresses from_str l strs m).addresses, same_key q p = true := by
  induction strs with
  | nil => intro l; simp [add_addresses]
  | cons s rest ih =>
    intro l
    obtain ⟨pa, hp⟩ := Option.isSome_iff_exists.1 (hparse s (List.mem_cons_self s rest))
    have ih2 := ih (fun t ht => hparse t (List.mem_cons_of_mem s ht))
    rw [add_addresses_cons from_str l s rest m pa hp]
    refine ⟨(ih2 _).1, ?_⟩
    intro t ht p hpt
    rcases List.mem_cons.1 ht with h | h
    · subst h
      rw [hp] at hpt
      simp only [Option.some.injEq] at hpt
      subst hpt
      obtain ⟨fresh, hfresh, _⟩ := add_addresses_appends from_str rest m
        (if find l pa = none then l ++ [{ pa with manual := m }] else l)
      rw [hfresh]
      by_cases hf : find l pa = none
      · refine ⟨{ pa with manual := m }, ?_, (same_key_iff _ _).2 rfl⟩
        simp [hf]
      · cases hfi : find l pa with
        | none => exact absurd hfi hf
        | some i =>
          obtain ⟨⟨r, hr, hk⟩, _⟩ := (find_eq_some_iff l pa i).1 hfi
          refine ⟨r, ?_, hk⟩
          rw [if_neg (by simp)]
          exact List.mem_append_left _ (List.mem_iff_getElem?.2 ⟨i, hr⟩)
    · exact (ih2 _).2 t h p hpt

/-- Claim C13. Bulk insert: for every registry, set of strings (visited in any order) and
flag `m`, after `add_addresses` the previous records are all still stored, unchanged and in
their places, followed by the newly inserted records, each of which has `manual = m`; and
when every string of the set parses, the call returns normally and a record with the
parsed identity key of every string of the set is stored. -/
theorem bulk_insert (from_str : String → Bool → Option peer_address)
    (addresses : List peer_address) (strs : List String) (m : Bool) :
    (∃ fresh : List peer_address,
      (add_addresses from_str addresses strs m).addresses = addresses ++ fresh ∧
        ∀ q ∈ fresh, q.manual = m) ∧
    ((∀ s ∈ strs, (from_str s false).isSome = true) →
      (add_addresses from_str addresses strs m).returned = true ∧
      ∀ s ∈ strs, ∀ p, from_str s false = some p →
        ∃ q ∈ (add_addresses from_str addresses strs m).addresses, same_key q p = true) :=
  ⟨add_addresses_appends from_str strs m addresses,
   fun hparse => add_addresses_covers from_str strs m hparse addresses⟩

/-- Witness of claim C13: one stored seed, three strings of which one has the stored key
and two share a new key. -/
theorem bulk_insert_witness :
    (add_addresses example_from_str [⟨"10.0.0.1", "9876", 0, false, false, 5⟩]
        ["10.0.0.2:9876", "10.0.0.1:9876:trx", "10.0.0.1:9876"] true)
      = ⟨[⟨"10.0.0.1", "9876", 0, false, false, 5⟩, ⟨"10.0.0.2", "9876", 0, false, true, 0⟩],
          true⟩ ∧
    (add_addresses example_from_str [⟨"10.0.0.1", "9876", 0, false, false, 5⟩]
        ["10.0.0.2:9876", "10.0.0.1:9876:trx", "10.0.0.1:9876"] true).returned = true ∧
    ∃ q ∈ (add_addresses example_from_str [⟨"10.0.0.1", "9876", 0, false, false, 5⟩]
        ["10.0.0.2:9876", "10.0.0.1:9876:trx", "10.0.0.1:9876"] true).addresses,
      same_key q ⟨"10.0.0.2", "9876", 0, false, false, 0⟩ = true :=
  have h := (bulk_insert example_from_str [⟨"10.0.0.1", "9876", 0, false, false, 5⟩]
    ["10.0.0.2:9876", "10.0.0.1:9876:trx", "10.0.0.1:9876"] true).2 (by decide)
  ⟨by decide, h.1,
   h.2 "10.0.0.2:9876" (by decide) ⟨"10.0.0.2", "9876", 0, false, false, 0⟩ (by decide)⟩

/-! ## Lookup -/

theorem get_addresses_map_of_find_some (from_str : String → Bool → Option peer_address)
    {l : List peer_address} {s : String} {p r : peer_address} {i : Nat}
    (hp : from_str s false = some p) (hf : find l p = some i) (hr : l[i]? = some r) :
    get_addresses_map from_str l s = some r := by
  simp [get_addresses_map, hp, hf, List.getD_eq_getElem?_getD, hr]

theorem get_addresses_map_of_find_none (from_str : String → Bool → Option peer_address)
    {l : List peer_address} {s : String} {p : peer_address}
    (hp : from_str s false = some p) (hf : find l p = none) :
    get_addresses_map from_str l s = some peer_address.default := by
  simp [get_addresses_map, hp, hf]

/-- Claim C14. Lookup result: for a string `s` that parses to `p`, `get_addresses_map s`
returns normally; when a record with the key of `p` is stored it returns a stored record
with that key, which under identity uniqueness is the stored record with that key; when
none is stored it returns the default constructed record. The method only reads the
registry: it is a function of the stored list and yields no new list. -/
theorem lookup_result (from_str : String → Bool → Option peer_address)
    (addresses : List peer_address) (s : String) (p : peer_address)
    (hp : from_str s false = some p) :
    (∀ r ∈ addresses, same_key r p = true →
      (∃ r2 ∈ addresses, same_key r2 p = true ∧
        get_addresses_map from_str addresses s = some r2) ∧
      (unique_keys addresses → get_addresses_map from_str addresses s = some r)) ∧
    ((∀ q ∈ addresses, same_key q p = false) →
      get_addresses_map from_str addresses s = some peer_address.default) := by
  constructor
  · intro r hr hk
    obtain ⟨i, hf⟩ := find_isSome_of_mem hr hk
    obtain ⟨⟨r2, hr2, hk2⟩, _⟩ := (find_eq_some_iff addresses p i).1 hf
    refine ⟨⟨r2, List.mem_iff_getElem?.2 ⟨i, hr2⟩, hk2,
      get_addresses_map_of_find_some from_str hp hf hr2⟩, ?_⟩
    intro hu
    obtain ⟨j, hj⟩ := List.mem_iff_getElem?.1 hr
    have hfj := find_of_unique_keys hu hj hk
    exact get_addresses_map_of_find_some from_str hp hfj hj
  · intro h
    exact get_addresses_map_of_find_none from_str hp ((find_eq_none_iff addresses p).2 h)

/-- Witness of claim C14: the stored seed is returned with its own role, flags and stamp,
and an address that is not stored gives the default record. -/
theorem lookup_result_witness :
    get_addresses_map example_from_str
        [⟨"10.0.0.2", "9876", 2, false, false, 1⟩, ⟨"10.0.0.1", "9876", 3, true, true, 5⟩]
        "10.0.0.1:9876" = some ⟨"10.0.0.1", "9876", 3, true, true, 5⟩ ∧
    get_addresses_map example_from_str [⟨"10.0.0.2", "9876", 2, false, false, 1⟩]
        "10.0.0.1:9876" = some peer_address.default :=
  ⟨((lookup_result example_from_str
      [⟨"10.0.0.2", "9876", 2, false, false, 1⟩, ⟨"10.0.0.1", "9876", 3, true, true, 5⟩]
      "10.0.0.1:9876" ⟨"10.0.0.1", "9876", 0, false, false, 0⟩ (by decide)).1
      ⟨"10.0.0.1", "9876", 3, true, true, 5⟩ (by decide) (by decide)).2 (by decide),
   (lookup_result example_from_str [⟨"10.0.0.2", "9876", 2, false, false, 1⟩]
      "10.0.0.1:9876" ⟨"10.0.0.1", "9876", 0, false, false, 0⟩ (by decide)).2 (by decide)⟩

/-- Claim C15, as stated, fails: a registry that stores the all-default record (added with
`add_address`) answers a lookup of a string with the empty key by that stored record, which
is the very value the method returns when nothing is stored; the result is the default
record although a record with the parsed key is stored, and it is the same result as on
the empty registry. -/
theorem lookup_default_is_ambiguous :
    add_address [] peer_address.default = [peer_address.default] ∧
    has_address bare_colon_from_str [peer_address.default] ":" = some true ∧
    get_addresses_map bare_colon_from_str [peer_address.default] ":"
      = some peer_address.default ∧
    get_addresses_map bare_colon_from_str [] ":" = some peer_address.default := by
  decide

/-- Claim C15, amended. For a string whose parse has a non-empty host or a non-empty port,
the result of `get_addresses_map` is the default constructed record if and only if no
record with the parsed identity key is stored. -/
theorem lookup_signals_absence (from_str : String → Bool → Option peer_address)
    (addresses : List peer_address) (s : String) (p : peer_address)
    (hp : from_str s false = some p) (hne : p.host ≠ "" ∨ p.port ≠ "") :
    get_addresses_map from_str addresses s = some peer_address.default ↔
      ∀ q ∈ addresses, same_key q p = false := by
  constructor
  · intro hget
    rw [← find_eq_none_iff]
    cases hf : find addresses p with
    | none => rfl
    | some i =>
      exfalso
      obtain ⟨⟨r, hr, hk⟩, _⟩ := (find_eq_some_iff addresses p i).1 hf
      rw [get_addresses_map_of_find_some from_str hp hf hr] at hget
      simp only [Option.some.injEq] at hget
      rw [same_key_iff, hget] at hk
      simp only [peer_address.key, peer_address.default, Prod.mk.injEq] at hk
      rcases hne with h | h
      · exact h hk.1.symm
      · exact h hk.2.symm
  · intro h
    exact get_addresses_map_of_find_none from_str hp ((find_eq_none_iff addresses p).2 h)

/-- Witness of the amended claim C15: with a proper key the default result means that the
address is not stored. -/
theorem lookup_signals_absence_witness :
    ((⟨"10.0.0.1", "9876", 0, false, false, 0⟩ : peer_address).host ≠ "" ∨
      (⟨"10.0.0.1", "9876", 0, false, false, 0⟩ : peer_address).port ≠ "") ∧
    (get_addresses_map example_from_str [⟨"10.0.0.2", "9876", 2, false, false, 1⟩]
        "10.0.0.1:9876" = some peer_address.default ↔
      ∀ q ∈ [(⟨"10.0.0.2", "9876", 2, false, false, 1⟩ : peer_address)],
        same_key q ⟨"10.0.0.1", "9876", 0, false, false, 0⟩ = false) :=
  ⟨by decide,
   lookup_signals_absence example_from_str [⟨"10.0.0.2", "9876", 2, false, false, 1⟩]
     "10.0.0.1:9876" ⟨"10.0.0.1", "9876", 0, false, false, 0⟩ (by decide) (by decide)⟩

/-! ## Touch and the configuration flags -/

/-- Claim C17. Touching a stored record overwrites its configuration flags: on a registry
with identity uniqueness that stores at position `i` a record `r` with the key of the parse
`p` of `s`, after `touch_address s` position `i` holds `r` with `manual` and `receive`
replaced by those of `p` and every other field kept; so when the parser leaves
`manual = false`, a record stored with `manual = true` is stored with `manual = false`
afterwards. -/
theorem touch_overwrites_flags (from_str : String → Bool → Option peer_address)
    (addresses : List peer_address) (s : String) (now : Int) (p : peer_address)
    (hu : unique_keys addresses) (hp : from_str s false = some p) :
    ∀ (i : Nat) (r : peer_address), addresses[i]? = some r → same_key r p = true →
      (touch_address from_str addresses s now).addresses[i]? =
          some { r with manual := p.manual, receive := p.receive } ∧
      (p.manual = false → r.manual = true →
        ∃ r2, (touch_address from_str addresses s now).addresses[i]? = some r2 ∧
          r2.manual = false) := by
  intro i r hi hk
  have hk2 : same_key r { p with last_active := now } = true := by
    rw [same_key_iff] at hk ⊢; rw [hk]; rfl
  have hf := find_of_unique_keys hu hi hk2
  have hmain : (touch_address from_str addresses s now).addresses[i]? =
      some { r with manual := p.manual, receive := p.receive } := by
    simp only [touch_address, hp, add_or_update_address, hf]
    rw [List.getElem?_modify, hi]
    simp
  exact ⟨hmain, fun hm _ => ⟨_, hmain, hm⟩⟩

/-- Witness of claim C17: the manual seed with `receive = true` is touched at clock `77`
and is stored as a learned address with `receive = false`, its stamp `5` kept. -/
theorem touch_overwrites_flags_witness :
    unique_keys [⟨"10.0.0.2", "9876", 2, false, false, 1⟩, ⟨"10.0.0.1", "9876", 3, true, true, 5⟩] ∧
    (touch_address example_from_str
        [⟨"10.0.0.2", "9876", 2, false, false, 1⟩, ⟨"10.0.0.1", "9876", 3, true, true, 5⟩]
        "10.0.0.1:9876" 77).addresses[1]?
      = some ⟨"10.0.0.1", "9876", 3, false, false, 5⟩ :=
  ⟨by decide,
   (touch_overwrites_flags example_from_str
      [⟨"10.0.0.2", "9876", 2, false, false, 1⟩, ⟨"10.0.0.1", "9876", 3, true, true, 5⟩]
      "10.0.0.1:9876" 77 ⟨"10.0.0.1", "9876", 0, false, false, 0⟩ (by decide) (by decide) 1
      ⟨"10.0.0.1", "9876", 3, true, true, 5⟩ (by decide) (by decide)).1⟩

/-! ## Frame of the operations on one key -/

theorem filter_eraseIdx_of_find (l : List peer_address) (x : peer_address) :
    ∀ i, find l x = some i →
      (l.eraseIdx i).filter (fun q => !same_key q x) = l.filter (fun q => !same_key q x) := by
  induction l with
  | nil => intro i h; simp [find] at h
  | cons a t ih =>
    intro i h
    by_cases ha : same_key a x = true
    · simp [find, ha] at h
      subst h
      simp [ha]
    · simp only [Bool.not_eq_true] at ha
      simp only [find, ha, Bool.false_eq_true, if_false, Option.map_eq_some'] at h
      obtain ⟨k, hk, rfl⟩ := h
      simp [ha, ih k hk]

theorem filter_modify_of_find (l : List peer_address) (x : peer_address)
    (f : peer_address → peer_address) (hf : ∀ r, same_key (f r) x = same_key r x) :
    ∀ i, find l x = some i →
      (l.modify f i).filter (fun q => !same_key q x) = l.filter (fun q => !same_key q x) := by
  induction l with
  | nil => intro i h; simp [find] at h
  | cons a t ih =>
    intro i h
    by_cases ha : same_key a x = true
    · simp [find, ha] at h
      subst h
      simp [List.modify, ha, hf]
    · simp only [Bool.not_eq_true] at ha
      simp only [find, ha, Bool.false_eq_true, if_false, Option.map_eq_some'] at h
      obtain ⟨k, hk, rfl⟩ := h
      simp [ha, ih k hk]

theorem filter_set_of_find (l : List peer_address) (x : peer_address) :
    ∀ i, find l x = some i →
      (l.set i x).filter (fun q => !same_key q x) = l.filter (fun q => !same_key q x) := by
  induction l with
  | nil => intro i h; simp [find] at h
  | cons a t ih =>
    intro i h
    by_cases ha : same_key a x = true
    · simp [find, ha] at h
      subst h
      simp [ha, same_key_refl]
    · simp only [Bool.not_eq_true] at ha
      simp only [find, ha, Bool.false_eq_true, if_false, Option.map_eq_some'] at h
      obtain ⟨k, hk, rfl⟩ := h
      simp [ha, ih k hk]

/-- Claim C18. The operations on one key touch only that key: for every registry and record
`x`, each of `add_address x`, `add_or_update_address x`, `update_address x` and
`remove_address x` leaves the list of the stored records whose identity key differs from
that of `x` exactly as it was, in every field and in the same order; and when the key of
`x` is not stored, `add_address` and `add_or_update_address` place `x` after all the
previous records. -/
theorem single_key_frame (addresses : List peer_address) (x : peer_address) :
    (add_address addresses x).filter (fun q => !same_key q x)
      = addresses.filter (fun q => !same_key q x) ∧
    (add_or_update_address addresses x).filter (fun q => !same_key q x)
      = addresses.filter (fun q => !same_key q x) ∧
    (update_address addresses x).filter (fun q => !same_key q x)
      = addresses.filter (fun q => !same_key q x) ∧
    (remove_address addresses x).filter (fun q => !same_key q x)
      = addresses.filter (fun q => !same_key q x) ∧
    ((∀ q ∈ addresses, same_key q x = false) →
      add_address addresses x = addresses ++ [x] ∧
      add_or_update_address addresses x = addresses ++ [x]) := by
  cases hf : find addresses x with
  | none =>
    have hall := (find_eq_none_iff addresses x).1 hf
    refine ⟨?_, ?_, ?_, ?_, ?_⟩
    · simp [add_address, hf, same_key_refl]
    · simp [add_or_update_address, hf, same_key_refl]
    · simp [update_address, hf]
    · simp [remove_address, hf]
    · intro _
      simp [add_address, add_or_update_address, hf]
  | some i =>
    refine ⟨?_, ?_, ?_, ?_, ?_⟩
    · simp [add_address, hf]
    · simp only [add_or_update_address, hf]
      exact filter_modify_of_find addresses x
        (fun r => { r with manual := x.manual, receive := x.receive }) (fun r => rfl) i hf
    · simp only [update_address, hf]
      exact filter_set_of_find addresses x i hf
    · simp only [remove_address, hf]
      exact filter_eraseIdx_of_find addresses x i hf
    · intro h
      rw [(find_eq_none_iff addresses x).2 h] at hf
      exact absurd hf (by simp)

/-- Witness of claim C18: an unknown key is appended by both insert operations. -/
theorem single_key_frame_witness :
    add_address [⟨"10.0.0.2", "9876", 2, false, false, 1⟩] ⟨"10.0.0.1", "9876", 3, true, true, 5⟩
      = [⟨"10.0.0.2", "9876", 2, false, false, 1⟩, ⟨"10.0.0.1", "9876", 3, true, true, 5⟩] ∧
    add_or_update_address [⟨"10.0.0.2", "9876", 2, false, false, 1⟩]
        ⟨"10.0.0.1", "9876", 3, true, true, 5⟩
      = [⟨"10.0.0.2", "9876", 2, false, false, 1⟩, ⟨"10.0.0.1", "9876", 3, true, true, 5⟩] :=
  (single_key_frame [⟨"10.0.0.2", "9876", 2, false, false, 1⟩]
    ⟨"10.0.0.1", "9876", 3, true, true, 5⟩).2.2.2.2 (by decide)

/-! ## Bulk insertion does not depend on the order of the set -/

theorem find_eq_none_iff_key (l : List peer_address) (a : peer_address) :
    find l a = none ↔ a.key ∉ stored_keys l := by
  rw [find_eq_none_iff]
  simp only [stored_keys, List.mem_toFinset, List.mem_map, not_exists, not_and]
  constructor
  · intro h q hq hk
    have := h q hq
    rw [same_key_false_iff] at this
    exact this hk
  · intro h q hq
    rw [same_key_false_iff]
    exact h q hq

theorem stored_keys_append_singleton (l : List peer_address) (a : peer_address) :
    stored_keys (l ++ [a]) = insert a.key (stored_keys l) := by
  ext k
  simp only [stored_keys, List.map_append, List.map_cons, List.map_nil, List.mem_toFinset,
    List.mem_append, List.mem_singleton, Finset.mem_insert]
  tauto

theorem parsed_keys_cons (from_str : String → Bool → Option peer_address) (s : String)
    (rest : List String) (pa : peer_address) (hp : from_str s false = some pa) :
    parsed_keys from_str (s :: rest) = insert pa.key (parsed_keys from_str rest) := by
  unfold parsed_keys
  rw [List.filterMap_cons_some (b := pa.key) (by simp [hp]), List.toFinset_cons]

/-- The keys and the number of records after `add_addresses`, in terms of sets only. -/
theorem add_addresses_keys_and_length (from_str : String → Bool → Option peer_address)
    (strs : List String) (m : Bool)
    (hparse : ∀ s ∈ strs, (from_str s false).isSome = true) :
    ∀ l : List peer_address,
      stored_keys (add_addresses from_str l strs m).addresses
        = stored_keys l ∪ parsed_keys from_str strs ∧
      (add_addresses from_str l strs m).addresses.length
        = l.length + (parsed_keys from_str strs \ stored_keys l).card := by
  induction strs with
  | nil => intro l; simp [add_addresses, parsed_keys]
  | cons s rest ih =>
    intro l
    obtain ⟨pa, hp⟩ := Option.isSome_iff_exists.1 (hparse s (List.mem_cons_self s rest))
    have ih2 := ih (fun t ht => hparse t (List.mem_cons_of_mem s ht))
    rw [add_addresses_cons from_str l s rest m pa hp, parsed_keys_cons from_str s rest pa hp]
    by_cases hf : find l pa = none
    · have hk : pa.key ∉ stored_keys l := (find_eq_none_iff_key l pa).1 hf
      obtain ⟨h1, h2⟩ := ih2 (l ++ [{ pa with manual := m }])
      have hkeys : stored_keys (l ++ [{ pa with manual := m }])
          = insert pa.key (stored_keys l) := stored_keys_append_singleton l _
      rw [if_pos hf, h1, h2, hkeys]
      constructor
      · ext k
        simp only [Finset.mem_union, Finset.mem_insert]
        tauto
      · have hset : insert pa.key (parsed_keys from_str rest) \ stored_keys l
            = insert pa.key (parsed_keys from_str rest \ insert pa.key (stored_keys l)) := by
          ext k
          simp only [Finset.mem_sdiff, Finset.mem_insert, not_or]
          by_cases hkk : k = pa.key
          · subst hkk; simp [hk]
          · simp [hkk]
        have hnot : pa.key ∉ parsed_keys from_str rest \ insert pa.key (stored_keys l) := by
          simp
        rw [hset, Finset.card_insert_of_not_mem hnot, List.length_append]
        simp only [List.length_singleton]
        omega
    · have hk : pa.key ∈ stored_keys l := by
        by_contra h
        exact hf ((find_eq_none_iff_key l pa).2 h)
      obtain ⟨h1, h2⟩ := ih2 l
      rw [if_neg hf, h1, h2, Finset.insert_sdiff_of_mem _ hk]
      refine ⟨?_, rfl⟩
      ext k
      simp only [Finset.mem_union, Finset.mem_insert]
      constructor
      · tauto
      · rintro (h | h | h)
        · exact Or.inl h
        · exact Or.inl (h ▸ hk)
        · exact Or.inr h

theorem parsed_keys_perm (from_str : String → Bool → Option peer_address)
    {strs1 strs2 : List String} (h : strs1.Perm strs2) :
    parsed_keys from_str strs1 = parsed_keys from_str strs2 :=
  List.toFinset_eq_of_perm _ _ (h.filterMap _)

/-- Claim C19. Bulk insert is order-independent on keys: for every registry, flag `m` and
two visiting orders of the same set of strings that all parse, `add_addresses` under either
order leaves registries with the same set of identity keys and the same number of records
(hence the same `get_addresses_count`), also when different strings of the set parse to
the same key. -/
theorem bulk_insert_order_independent (from_str : String → Bool → Option peer_address)
    (addresses : List peer_address) (m : Bool) (strs1 strs2 : List String)
    (hperm : strs1.Perm strs2)
    (hparse : ∀ s ∈ strs1, (from_str s false).isSome = true) :
    stored_keys (add_addresses from_str addresses strs1 m).addresses
      = stored_keys (add_addresses from_str addresses strs2 m).addresses ∧
    (add_addresses from_str addresses strs1 m).addresses.length
      = (add_addresses from_str addresses strs2 m).addresses.length ∧
    get_addresses_count (add_addresses from_str addresses strs1 m).addresses
      = get_addresses_count (add_addresses from_str addresses strs2 m).addresses := by
  have hparse2 : ∀ s ∈ strs2, (from_str s false).isSome = true :=
    fun s hs => hparse s (hperm.mem_iff.2 hs)
  obtain ⟨k1, n1⟩ := add_addresses_keys_and_length from_str strs1 m hparse addresses
  obtain ⟨k2, n2⟩ := add_addresses_keys_and_length from_str strs2 m hparse2 addresses
  have hlen : (add_addresses from_str addresses strs1 m).addresses.length
      = (add_addresses from_str addresses strs2 m).addresses.length := by
    rw [n1, n2, parsed_keys_perm from_str hperm]
  refine ⟨?_, hlen, ?_⟩
  · rw [k1, k2, parsed_keys_perm from_str hperm]
  · simp only [get_addresses_count, hlen]

/-- Witness of claim C19: two strings of the set parse to the same key with different
roles; the two orders store different roles under that key, but the same keys and the same
number of records. -/
theorem bulk_insert_order_independent_witness :
    (add_addresses example_from_str [] ["10.0.0.1:9876", "10.0.0.1:9876:trx", "10.0.0.2:9876"]
        true).addresses
      = [⟨"10.0.0.1", "9876", 0, false, true, 0⟩, ⟨"10.0.0.2", "9876", 0, false, true, 0⟩] ∧
    (add_addresses example_from_str [] ["10.0.0.2:9876", "10.0.0.1:9876:trx", "10.0.0.1:9876"]
        true).addresses
      = [⟨"10.0.0.2", "9876", 0, false, true, 0⟩, ⟨"10.0.0.1", "9876", 1, false, true, 0⟩] ∧
    stored_keys (add_addresses example_from_str []
        ["10.0.0.1:9876", "10.0.0.1:9876:trx", "10.0.0.2:9876"] true).addresses
      = stored_keys (add_addresses example_from_str []
        ["10.0.0.2:9876", "10.0.0.1:9876:trx", "10.0.0.1:9876"] true).addresses :=
  ⟨by decide, by decide,
   (bulk_insert_order_independent example_from_str [] true
      ["10.0.0.1:9876", "10.0.0.1:9876:trx", "10.0.0.2:9876"]
      ["10.0.0.2:9876", "10.0.0.1:9876:trx", "10.0.0.1:9876"] (by decide) (by decide)).1⟩

/-! ## The number of records -/

theorem length_add_address (l : List peer_address) (x : peer_address) :
    (add_address l x).length = if find l x = none then l.length + 1 else l.length := by
  cases hf : find l x <;> simp [add_address, hf]

theorem length_add_or_update_address (l : List peer_address) (x : peer_address) :
    (add_or_update_address l x).length
      = if find l x = none then l.length + 1 else l.length := by
  cases hf : find l x <;> simp [add_or_update_address, hf]

theorem length_update_address (l : List peer_address) (x : peer_address) :
    (update_address l x).length = l.length := by
  cases hf : find l x <;> simp [update_address, hf]

theorem length_remove_address (l : List peer_address) (x : peer_address) :
    (remove_address l x).length = if find l x = none then l.length else l.length - 1 := by
  cases hf : find l x with
  | none => simp [remove_address, hf]
  | some i => simp [remove_address, hf, List.length_eraseIdx, find_lt_length hf]

theorem many_addresses_length (n : Nat) : (many_addresses n).length = n := by
  simp [many_addresses]

theorem many_addresses_no_key (n : Nat) (x : peer_address) (hx : x.port ≠ "1") :
    ∀ q ∈ many_addresses n, same_key q x = false := by
  intro q hq
  simp only [many_addresses, List.mem_map, List.mem_range] at hq
  obtain ⟨k, _, rfl⟩ := hq
  rw [same_key_false_iff]
  intro h
  simp only [peer_address.key, Prod.mk.injEq] at h
  exact hx h.2.symm

theorem many_addresses_unique (n : Nat) : unique_keys (many_addresses n) := by
  unfold unique_keys many_addresses
  rw [List.map_map]
  apply List.Nodup.map _ (List.nodup_range n)
  intro a b h
  simp only [Function.comp, peer_address.key, Prod.mk.injEq, and_true] at h
  have := congrArg (fun t : String => t.data.length) h
  simpa using this

/-- Claim C20, as stated, fails: `get_addresses_count` is a `uint32_t`. On the registry of
`4294967295` records with pairwise different keys, adding a record with a key that is not
stored makes the count `0`, not the previous count `4294967295` plus one. -/
theorem count_wraps_at_uint32 :
    unique_keys (many_addresses 4294967295) ∧
    (∀ q ∈ many_addresses 4294967295,
      same_key q ⟨"10.0.0.1", "9876", 0, false, false, 0⟩ = false) ∧
    get_addresses_count (many_addresses 4294967295) = 4294967295 ∧
    get_addresses_count
      (add_address (many_addresses 4294967295) ⟨"10.0.0.1", "9876", 0, false, false, 0⟩) = 0 ∧
    get_addresses_count
      (add_or_update_address (many_addresses 4294967295)
        ⟨"10.0.0.1", "9876", 0, false, false, 0⟩) = 0 := by
  have hno := many_addresses_no_key 4294967295 ⟨"10.0.0.1", "9876", 0, false, false, 0⟩
    (by decide)
  have hf := (find_eq_none_iff _ _).2 hno
  refine ⟨many_addresses_unique _, hno, ?_, ?_, ?_⟩
  · rw [get_addresses_count, many_addresses_length]; norm_num
  · rw [get_addresses_count, length_add_address, if_pos hf, many_addresses_length]; norm_num
  · rw [get_addresses_count, length_add_or_update_address, if_pos hf, many_addresses_length]
    norm_num

/-- Claim C20, amended. Count bookkeeping below the range of the result type: for every
registry of fewer than `2 ^ 32 - 1` records and every record `x`, `get_addresses_count`
after `add_address x` or `add_or_update_address x` is the previous count plus one when the
key of `x` was not stored and the previous count when it was; after `update_address x` it
is the previous count; after `remove_address x` it is the previous count minus one when
the key was stored and the previous count when it was not. -/
theorem count_bookkeeping (addresses : List peer_address) (x : peer_address)
    (hb : addresses.length < 2 ^ 32 - 1) :
    ((∀ q ∈ addresses, same_key q x = false) →
      get_addresses_count (add_address addresses x) = get_addresses_count addresses + 1 ∧
      get_addresses_count (add_or_update_address addresses x)
        = get_addresses_count addresses + 1 ∧
      get_addresses_count (remove_address addresses x) = get_addresses_count addresses) ∧
    ((∃ r ∈ addresses, same_key r x = true) →
      get_addresses_count (add_address addresses x) = get_addresses_count addresses ∧
      get_addresses_count (add_or_update_address addresses x)
        = get_addresses_count addresses ∧
      get_addresses_count (remove_address addresses x)
        = get_addresses_count addresses - 1) ∧
    get_addresses_count (update_address addresses x) = get_addresses_count addresses := by
  have hb2 : addresses.length < 4294967295 := by simpa using hb
  have hmod : ∀ n : Nat, n ≤ addresses.length + 1 → n % 2 ^ 32 = n := by
    intro n hn
    apply Nat.mod_eq_of_lt
    have : (2 : Nat) ^ 32 = 4294967296 := by norm_num
    omega
  refine ⟨?_, ?_, ?_⟩
  · intro h
    have hf := (find_eq_none_iff addresses x).2 h
    simp only [get_addresses_count, length_add_address, length_add_or_update_address,
      length_remove_address, if_pos hf]
    rw [hmod _ (le_refl _), hmod _ (Nat.le_succ _)]
    simp
  · rintro ⟨r, hr, hk⟩
    obtain ⟨i, hi⟩ := find_isSome_of_mem hr hk
    have hf : ¬ find addresses x = none := by simp [hi]
    simp only [get_addresses_count, length_add_address, length_add_or_update_address,
      length_remove_address, if_neg hf]
    rw [hmod _ (Nat.le_succ _), hmod _ (by omega)]
    simp
  · simp only [get_addresses_count, length_update_address]

/-- Witness of the amended claim C20 on a registry of two records. -/
theorem count_bookkeeping_witness :
    [(⟨"10.0.0.2", "9876", 2, false, false, 1⟩ : peer_address),
      ⟨"10.0.0.1", "9876", 3, true, true, 5⟩].length < 2 ^ 32 - 1 ∧
    get_addresses_count (add_address
        [⟨"10.0.0.2", "9876", 2, false, false, 1⟩, ⟨"10.0.0.1", "9876", 3, true, true, 5⟩]
        ⟨"10.0.0.3", "9876", 0, false, false, 0⟩)
      = get_addresses_count
          [⟨"10.0.0.2", "9876", 2, false, false, 1⟩, ⟨"10.0.0.1", "9876", 3, true, true, 5⟩] + 1 ∧
    get_addresses_count (remove_address
        [⟨"10.0.0.2", "9876", 2, false, false, 1⟩, ⟨"10.0.0.1", "9876", 3, true, true, 5⟩]
        ⟨"10.0.0.1", "9876", 0, false, false, 0⟩)
      = get_addresses_count
          [⟨"10.0.0.2", "9876", 2, false, false, 1⟩, ⟨"10.0.0.1", "9876", 3, true, true, 5⟩] - 1 :=
  ⟨by decide,
   ((count_bookkeeping
      [⟨"10.0.0.2", "9876", 2, false, false, 1⟩, ⟨"10.0.0.1", "9876", 3, true, true, 5⟩]
      ⟨"10.0.0.3", "9876", 0, false, false, 0⟩ (by decide)).1 (by decide)).1,
   ((count_bookkeeping
      [⟨"10.0.0.2", "9876", 2, false, false, 1⟩, ⟨"10.0.0.1", "9876", 3, true, true, 5⟩]
      ⟨"10.0.0.1", "9876", 0, false, false, 0⟩ (by decide)).2.1
      ⟨⟨"10.0.0.1", "9876", 3, true, true, 5⟩, by decide, by decide⟩).2.2⟩

end eosio
